import Mathlib

/-!
Verification of the branch prediction unit (bpu.h) of the mipt-mips simulator.

The generic prediction table `BP<T>` and the factory `BPFactory` are embedded
from `src/simulator/bpu/bpu.h`.  The prediction entry algorithms (`bpentry.h`)
and the associative address store (`CacheTagArray`, `cache_tag_array.h`) are
not part of the examined sources, so they are modelled from the specification
(sections 4.1 and 6 of spec.md).  Machine integers are modelled as `Nat`;
addresses are reduced by the store to a key of granularity 4 truncated to the
configured address width, exactly as the spec describes the tag-only store.
-/

/-- Addresses (instruction pointers).  Modelled as natural numbers. -/
abbrev Addr := Nat

/-- `BPInterface` from `bp_interface.h` (not under src/):
Modelled from the spec: both `BranchOutcomeEvent` and `BranchPredictionInfo`
are records `{address, taken, target}`; the field names `pc`, `is_taken`,
`target` are those used by `bpu.h`. -/
structure BPInterface where
  pc : Addr
  is_taken : Bool
  target : Addr
  deriving DecidableEq, Repr

/-- Replace the `i`-th element of a list by `f` applied to it; out-of-range
indices leave the list unchanged (models an in-bounds C++ vector write). -/
def modifyAt {α : Type} (l : List α) (i : Nat) (f : α → α) : List α :=
  match l, i with
  | [], _ => []
  | x :: xs, 0 => f x :: xs
  | x :: xs, n + 1 => x :: modifyAt xs n f

@[simp] theorem length_modifyAt {α : Type} (l : List α) (i : Nat) (f : α → α) :
    (modifyAt l i f).length = l.length := by
  induction l generalizing i with
  | nil => rfl
  | cons x xs ih => cases i <;> simp [modifyAt, ih]

theorem getD_modifyAt_self {α : Type} (l : List α) (i : Nat) (f : α → α) (d : α)
    (h : i < l.length) : (modifyAt l i f).getD i d = f (l.getD i d) := by
  induction l generalizing i with
  | nil => simp at h
  | cons x xs ih =>
    cases i with
    | zero => simp [modifyAt]
    | succ n => simpa [modifyAt] using ih n (by simpa using h)

theorem getD_modifyAt_ne {α : Type} (l : List α) (i j : Nat) (f : α → α) (d : α)
    (h : j ≠ i) : (modifyAt l i f).getD j d = l.getD j d := by
  induction l generalizing i j with
  | nil => rfl
  | cons x xs ih =>
    cases i with
    | zero => cases j with
      | zero => exact absurd rfl h
      | succ m => simp [modifyAt]
    | succ n => cases j with
      | zero => simp [modifyAt]
      | succ m => simpa [modifyAt] using ih n m (fun hc => h (by simp [hc]))

theorem mem_modifyAt {α : Type} {l : List α} {i : Nat} {f : α → α} {row : α}
    (h : row ∈ modifyAt l i f) : row ∈ l ∨ ∃ r ∈ l, row = f r := by
  induction l generalizing i with
  | nil => simp [modifyAt] at h
  | cons x xs ih =>
    cases i with
    | zero =>
      rcases (List.mem_cons.mp h) with h1 | h1
      · exact Or.inr ⟨x, List.mem_cons_self .., h1⟩
      · exact Or.inl (List.mem_cons_of_mem _ h1)
    | succ n =>
      rcases (List.mem_cons.mp h) with h1 | h1
      · exact Or.inl (h1 ▸ List.mem_cons_self ..)
      · rcases ih h1 with h2 | ⟨r, hr, hrow⟩
        · exact Or.inl (List.mem_cons_of_mem _ h2)
        · exact Or.inr ⟨r, List.mem_cons_of_mem _ hr, hrow⟩

/-!
## The associative address store

Modelled from the spec: `CacheTagArray` (cache_tag_array.h is not under src/).
Section 6 of the spec gives its interface: a non-mutating `peek`
(`read_no_touch`), a mutating `lookup` (`read`) that updates replacement
order, `set_index` (`set`), and `insert` (`write`) which may evict the prior
occupant, under an LRU-style replacement policy.  The store is tag-only with
addressing granularity 4 and a configured tag width; it holds
`size / ways` sets of `ways` ways (matching the table's entry array).
LRU order is modelled with per-slot timestamps and a global clock.
-/
structure TagState where
  ways : Nat
  sets : Nat
  granularity : Nat
  addr_bits : Nat
  /-- `tag w s` is the key resident in way `w` of set `s`, if any. -/
  tag : Nat → Nat → Option Nat
  /-- last-touched timestamp of each slot (0 = never touched). -/
  stamp : Nat → Nat → Nat
  clock : Nat

namespace TagState

/-- The lookup key of an address: granularity-4 line number truncated to the
configured address width. -/
def key (t : TagState) (a : Addr) : Nat := (a / t.granularity) % 2 ^ t.addr_bits

/-- `set_index` of an address. -/
def setOf (t : TagState) (a : Addr) : Nat := t.key a % t.sets

/-- The way holding the address's key in its set, if any. -/
def hitWay (t : TagState) (a : Addr) : Option Nat :=
  (List.range t.ways).find? (fun w => t.tag w (t.setOf a) == some (t.key a))

/-- `read_no_touch`: non-mutating peek returning (hit, way). -/
def read_no_touch (t : TagState) (a : Addr) : Bool × Nat :=
  match t.hitWay a with
  | some w => (true, w)
  | none => (false, 0)

/-- Mark slot (w, s) most recently used. -/
def touch (t : TagState) (w s : Nat) : TagState :=
  { t with
    stamp := fun w' s' => if w' = w ∧ s' = s then t.clock else t.stamp w' s'
    clock := t.clock + 1 }

/-- `read`: mutating lookup; on a hit the slot becomes most recently used. -/
def read (t : TagState) (a : Addr) : (Bool × Nat) × TagState :=
  match t.hitWay a with
  | some w => ((true, w), t.touch w (t.setOf a))
  | none => ((false, 0), t)

/-- The LRU victim of a set: the way with the smallest timestamp (never
touched slots carry stamp 0 and are preferred; ties resolved to the lowest
way). -/
def victim (t : TagState) (s : Nat) : Nat :=
  (List.range t.ways).foldl (fun best w => if t.stamp w s < t.stamp best s then w else best) 0

/-- `write` (insert): allocate the LRU victim way of the address's set for
the address's key, evicting the prior occupant, and return the way. -/
def write (t : TagState) (a : Addr) : Nat × TagState :=
  let s := t.setOf a
  let w := t.victim s
  (w, { t with
        tag := fun w' s' => if w' = w ∧ s' = s then some (t.key a) else t.tag w' s'
        stamp := fun w' s' => if w' = w ∧ s' = s then t.clock else t.stamp w' s'
        clock := t.clock + 1 })

/-- A freshly constructed store: every slot invalid, clock starts at 1 so
that untouched slots are always the oldest. -/
def init (size ways granularity addr_bits : Nat) : TagState :=
  { ways := ways
    sets := size / ways
    granularity := granularity
    addr_bits := addr_bits
    tag := fun _ _ => none
    stamp := fun _ _ => 0
    clock := 1 }

end TagState

/-!
## Prediction entries

Modelled from the spec: `bpentry.h` is not under src/.  Section 4.1 of the
spec defines the five algorithms and the uniform contract
`{predict_taken, predict_target, train, reset}`; `bpu.h` calls these methods
`is_taken`, `getTarget`, `update`, `update_target` and `reset`.  Training
records the target when the observed outcome is taken; the table's miss path
seeds the target separately (`update_target`) so that a not-taken training of
a fresh entry still leaves the event's target resident.
-/

/-- The operations through which `BP<T>` uses its entry type `T` (the method
names used in bpu.h). -/
structure BPEntryOps (E : Type) where
  reset : E
  is_taken : E → Addr → Bool
  getTarget : E → Addr
  update_target : E → Addr → E
  update : E → Bool → Addr → E

/-- Modelled from the spec: AlwaysTaken — predicts taken unconditionally,
remembers the most recently trained (taken) target. -/
structure BPEntryAlwaysTaken where
  target : Addr
  deriving DecidableEq, Repr

def alwaysTakenOps : BPEntryOps BPEntryAlwaysTaken where
  reset := ⟨0⟩
  is_taken := fun _ _ => true
  getTarget := fun e => e.target
  update_target := fun _ t => ⟨t⟩
  update := fun e tk t => if tk then ⟨t⟩ else e

/-- Modelled from the spec: BackwardJumps — predicts taken iff the most
recently trained target is at or below the querying address (backward edge);
the trained direction flag is not used for the decision. -/
structure BPEntryBackwardJumps where
  target : Addr
  deriving DecidableEq, Repr

def backwardJumpsOps : BPEntryOps BPEntryBackwardJumps where
  reset := ⟨0⟩
  is_taken := fun e PC => e.target ≤ PC
  getTarget := fun e => e.target
  update_target := fun _ t => ⟨t⟩
  update := fun e tk t => if tk then ⟨t⟩ else e

/-- Modelled from the spec: OneBit — one bit holding the last observed
direction, overwritten unconditionally by training. -/
structure BPEntryOneBit where
  bit : Bool
  target : Addr
  deriving DecidableEq, Repr

def oneBitOps : BPEntryOps BPEntryOneBit where
  reset := ⟨false, 0⟩
  is_taken := fun e _ => e.bit
  getTarget := fun e => e.target
  update_target := fun e t => ⟨e.bit, t⟩
  update := fun e tk t => ⟨tk, if tk then t else e.target⟩

/-- The four states of the two-bit saturating counter (spec 4.1). -/
inductive TwoBitState where
  | nt_strong
  | nt_weak
  | t_weak
  | t_strong
  deriving DecidableEq, Repr

namespace TwoBitState

/-- Direction predicted by a counter state: taken iff weakly or strongly
taken. -/
def predicts : TwoBitState → Bool
  | nt_strong => false
  | nt_weak => false
  | t_weak => true
  | t_strong => true

/-- One training transition of the saturating counter: one step toward the
observed direction, saturating at both ends. -/
def train : TwoBitState → Bool → TwoBitState
  | nt_strong, true => nt_weak
  | nt_weak, true => t_weak
  | t_weak, true => t_strong
  | t_strong, true => t_strong
  | nt_strong, false => nt_strong
  | nt_weak, false => nt_strong
  | t_weak, false => nt_weak
  | t_strong, false => t_weak

/-- Numeric encoding of the counter (0 = strongly not taken … 3 = strongly
taken). -/
def toNat : TwoBitState → Nat
  | nt_strong => 0
  | nt_weak => 1
  | t_weak => 2
  | t_strong => 3

end TwoBitState

/-- Modelled from the spec: TwoBit — a 4-state saturating counter.  The cold
(reset) state is weakly-not-taken, so that a single taken training yields a
taken prediction (spec section 8, train-then-query). -/
structure BPEntryTwoBit where
  state : TwoBitState
  target : Addr
  deriving DecidableEq, Repr

def twoBitOps : BPEntryOps BPEntryTwoBit where
  reset := ⟨.nt_weak, 0⟩
  is_taken := fun e _ => e.state.predicts
  getTarget := fun e => e.target
  update_target := fun e t => ⟨e.state, t⟩
  update := fun e tk t => ⟨e.state.train tk, if tk then t else e.target⟩

/-- Modelled from the spec: Adaptive-history(2) (`BPEntryAdaptive<2>`) — a
2-bit shift register of recent outcomes selecting one of four two-bit
saturating counters; training first trains the selected counter, then shifts
the observed bit into the register.  Cold counters start weakly taken so that
a single taken training yields a taken prediction through the shifted
register (spec section 8, train-then-query). -/
structure BPEntryAdaptive where
  hist : Nat
  counters : Nat → TwoBitState
  target : Addr

def adaptiveOps : BPEntryOps BPEntryAdaptive where
  reset := ⟨0, fun _ => .t_weak, 0⟩
  is_taken := fun e _ => (e.counters (e.hist % 4)).predicts
  getTarget := fun e => e.target
  update_target := fun e t => ⟨e.hist, e.counters, t⟩
  update := fun e tk t =>
    ⟨(e.hist * 2 + (if tk then 1 else 0)) % 4,
     fun i => if i = e.hist % 4 then (e.counters i).train tk else e.counters i,
     if tk then t else e.target⟩

/-!
## The prediction table `BP<T>` (embedded from bpu.h)
-/

/-- The table `BP<T>` of bpu.h: a 2-D entry array `data[way][set]` and the
address store `tags`. -/
structure BP (E : Type) where
  data : List (List E)
  tags : TagState

namespace BP

variable {E : Type}

/-- The entry at coordinate (way, set); the default is never reached for
in-bounds coordinates. -/
def entryAt (d : E) (bp : BP E) (w s : Nat) : E :=
  (bp.data.getD w []).getD s d

/-- The constructor `BP::BP` of bpu.h: `ways` columns of
`size_in_entries / ways` cold entries, and a `CacheTagArray` with hardcoded
granularity 4 and the given address width. -/
def init (ops : BPEntryOps E) (size_in_entries ways branch_ip_size_in_bits : Nat) : BP E :=
  { data := List.replicate ways (List.replicate (size_in_entries / ways) ops.reset)
    tags := TagState.init size_in_entries ways 4 branch_ip_size_in_bits }

/-- `BP::is_taken` of bpu.h: peek lookup; on a hit, ask the resident entry. -/
def is_taken (ops : BPEntryOps E) (bp : BP E) (PC : Addr) : Bool :=
  let r := bp.tags.read_no_touch PC
  r.1 && ops.is_taken (bp.entryAt ops.reset r.2 (bp.tags.setOf PC)) PC

/-- `BP::get_target` of bpu.h: peek lookup; the stored target is returned
only on a hit that is predicted taken, otherwise the fallthrough `PC + 4`. -/
def get_target (ops : BPEntryOps E) (bp : BP E) (PC : Addr) : Addr :=
  let r := bp.tags.read_no_touch PC
  if r.1 && bp.is_taken ops PC then
    ops.getTarget (bp.entryAt ops.reset r.2 (bp.tags.setOf PC))
  else PC + 4

/-- `BP::update` of bpu.h: touching lookup; on a miss, insert, reset the
allocated entry and seed its target; in all cases train the resident entry
exactly once. -/
def update (ops : BPEntryOps E) (bp : BP E) (bp_upd : BPInterface) : BP E :=
  let set := bp.tags.setOf bp_upd.pc
  let r := bp.tags.read bp_upd.pc
  if r.1.1 then
    { data := modifyAt bp.data r.1.2 (fun row => modifyAt row set
        (fun e => ops.update e bp_upd.is_taken bp_upd.target))
      tags := r.2 }
  else
    let wr := r.2.write bp_upd.pc
    { data := modifyAt bp.data wr.1 (fun row => modifyAt row set
        (fun _ => ops.update (ops.update_target ops.reset bp_upd.target)
          bp_upd.is_taken bp_upd.target))
      tags := wr.2 }

/-- `BP::get_bp_info` of bpu.h: the two queries combined. -/
def get_bp_info (ops : BPEntryOps E) (bp : BP E) (PC : Addr) : BPInterface :=
  ⟨PC, bp.is_taken ops PC, bp.get_target ops PC⟩

/-- The single-lookup derivation of `get_bp_info` that the spec demands: one
peek lookup backing both the direction and the target decision. -/
def get_bp_info_single (ops : BPEntryOps E) (bp : BP E) (PC : Addr) : BPInterface :=
  let r := bp.tags.read_no_touch PC
  let e := bp.entryAt ops.reset r.2 (bp.tags.setOf PC)
  let tk := r.1 && ops.is_taken e PC
  ⟨PC, tk, if tk then ops.getTarget e else PC + 4⟩

end BP

/-!
## Store lemmas
-/

namespace TagState

theorem hitWay_some {t : TagState} {a : Addr} {w : Nat}
    (h : t.hitWay a = some w) :
    w < t.ways ∧ t.tag w (t.setOf a) = some (t.key a) := by
  have hmem := List.mem_of_find?_eq_some h
  have hp := List.find?_some h
  refine ⟨List.mem_range.mp hmem, ?_⟩
  simpa using hp

theorem hitWay_none {t : TagState} {a : Addr}
    (h : t.hitWay a = none) :
    ∀ w, w < t.ways → t.tag w (t.setOf a) ≠ some (t.key a) := by
  intro w hw hc
  have := List.find?_eq_none.mp h w (List.mem_range.mpr hw)
  simp [hc] at this

/-- A list `find?` finds the unique element satisfying the predicate. -/
theorem find?_of_unique {l : List Nat} {p : Nat → Bool} {v : Nat}
    (hv : v ∈ l) (hpv : p v = true)
    (huniq : ∀ w ∈ l, p w = true → w = v) :
    l.find? p = some v := by
  cases h : l.find? p with
  | none => exact absurd hpv (by simpa using List.find?_eq_none.mp h v hv)
  | some w =>
    have := huniq w (List.mem_of_find?_eq_some h) (List.find?_some h)
    simp [this]

theorem victim_lt {t : TagState} (s : Nat) (h : 0 < t.ways) :
    t.victim s < t.ways := by
  unfold victim
  have : ∀ (l : List Nat) (acc : Nat), acc < t.ways → (∀ x ∈ l, x < t.ways) →
      (l.foldl (fun best w => if t.stamp w s < t.stamp best s then w else best) acc) < t.ways := by
    intro l
    induction l with
    | nil => intro acc hacc _; exact hacc
    | cons x xs ih =>
      intro acc hacc hl
      simp only [List.foldl_cons]
      refine ih _ ?_ (fun y hy => hl y (List.mem_cons_of_mem _ hy))
      by_cases hc : t.stamp x s < t.stamp acc s <;>
        simp [hc, hl x (List.mem_cons_self ..), hacc]
  exact this _ 0 h (fun x hx => List.mem_range.mp hx)

@[simp] theorem touch_tag (t : TagState) (w s : Nat) : (t.touch w s).tag = t.tag := rfl
@[simp] theorem touch_ways (t : TagState) (w s : Nat) : (t.touch w s).ways = t.ways := rfl
@[simp] theorem touch_sets (t : TagState) (w s : Nat) : (t.touch w s).sets = t.sets := rfl
@[simp] theorem touch_granularity (t : TagState) (w s : Nat) :
    (t.touch w s).granularity = t.granularity := rfl
@[simp] theorem touch_addr_bits (t : TagState) (w s : Nat) :
    (t.touch w s).addr_bits = t.addr_bits := rfl
@[simp] theorem touch_clock (t : TagState) (w s : Nat) :
    (t.touch w s).clock = t.clock + 1 := rfl

@[simp] theorem write_ways (t : TagState) (a : Addr) : (t.write a).2.ways = t.ways := rfl
@[simp] theorem write_sets (t : TagState) (a : Addr) : (t.write a).2.sets = t.sets := rfl
@[simp] theorem write_granularity (t : TagState) (a : Addr) :
    (t.write a).2.granularity = t.granularity := rfl
@[simp] theorem write_addr_bits (t : TagState) (a : Addr) :
    (t.write a).2.addr_bits = t.addr_bits := rfl
@[simp] theorem write_fst (t : TagState) (a : Addr) :
    (t.write a).1 = t.victim (t.setOf a) := rfl

theorem write_tag (t : TagState) (a : Addr) (w' s' : Nat) :
    (t.write a).2.tag w' s' =
      if w' = t.victim (t.setOf a) ∧ s' = t.setOf a then some (t.key a)
      else t.tag w' s' := rfl

theorem key_touch (t : TagState) (w s : Nat) (a : Addr) :
    (t.touch w s).key a = t.key a := rfl

theorem setOf_touch (t : TagState) (w s : Nat) (a : Addr) :
    (t.touch w s).setOf a = t.setOf a := rfl

theorem key_write (t : TagState) (a b : Addr) : (t.write a).2.key b = t.key b := rfl

theorem setOf_write (t : TagState) (a b : Addr) : (t.write a).2.setOf b = t.setOf b := rfl

theorem hitWay_touch (t : TagState) (w s : Nat) (a : Addr) :
    (t.touch w s).hitWay a = t.hitWay a := rfl

/-- The first projection of the touching lookup agrees with the peek. -/
theorem read_fst_eq_read_no_touch (t : TagState) (a : Addr) :
    (t.read a).1 = t.read_no_touch a := by
  unfold read read_no_touch
  cases h : t.hitWay a <;> simp

theorem read_miss_state {t : TagState} {a : Addr}
    (h : t.hitWay a = none) : (t.read a).2 = t := by
  unfold read
  simp [h]

theorem read_hit_state {t : TagState} {a : Addr} {w : Nat}
    (h : t.hitWay a = some w) : (t.read a).2 = t.touch w (t.setOf a) := by
  unfold read
  simp [h]

/-- After inserting an address that missed, the store hits it at the victim
way. -/
theorem hitWay_write_self {t : TagState} {a : Addr}
    (hmiss : t.hitWay a = none) (hw : 0 < t.ways) :
    (t.write a).2.hitWay a = some (t.victim (t.setOf a)) := by
  unfold hitWay
  apply find?_of_unique
  · exact List.mem_range.mpr (by simpa using t.victim_lt (t.setOf a) hw)
  · simp [write_tag, setOf_write, key_write]
  · intro w hwmem hpw
    by_contra hne
    rw [write_tag] at hpw
    simp only [setOf_write, key_write, write_sets] at hpw hwmem hne
    rw [if_neg (by tauto)] at hpw
    exact hitWay_none hmiss w (by simpa using List.mem_range.mp hwmem) (by simpa using hpw)

theorem hitWay_init (size ways granularity addr_bits : Nat) (a : Addr) :
    (TagState.init size ways granularity addr_bits).hitWay a = none := by
  unfold hitWay
  exact List.find?_eq_none.mpr (fun w _ => by simp [TagState.init])

theorem read_no_touch_init (size ways granularity addr_bits : Nat) (a : Addr) :
    (TagState.init size ways granularity addr_bits).read_no_touch a = (false, 0) := by
  unfold read_no_touch
  simp [hitWay_init]

theorem setOf_lt {t : TagState} (a : Addr) (h : 0 < t.sets) : t.setOf a < t.sets :=
  Nat.mod_lt _ h

end TagState

/-!
## Well-formed and reachable table states
-/

/-- Structural well-formedness of the address store: positive geometry and at
most one way per set holding a given key. -/
structure TagWF (t : TagState) : Prop where
  ways_pos : 0 < t.ways
  sets_pos : 0 < t.sets
  uniq : ∀ s w1 w2 k, w1 < t.ways → w2 < t.ways →
    t.tag w1 s = some k → t.tag w2 s = some k → w1 = w2

/-- Structural well-formedness of a table: well-formed store and an entry
array of exactly `ways` columns of `sets` entries each. -/
structure BPWF {E : Type} (bp : BP E) : Prop where
  tagwf : TagWF bp.tags
  data_len : bp.data.length = bp.tags.ways
  row_len : ∀ row ∈ bp.data, row.length = bp.tags.sets

/-- The states reachable from a fresh (non-degenerate) table by training
events; queries are value-level and do not change the state (they use the
store's non-mutating peek only). -/
inductive Reachable {E : Type} (ops : BPEntryOps E) (size ways bits : Nat) : BP E → Prop where
  | init : 0 < ways → 0 < size / ways → Reachable ops size ways bits (BP.init ops size ways bits)
  | step {bp : BP E} (e : BPInterface) :
      Reachable ops size ways bits bp → Reachable ops size ways bits (BP.update ops bp e)

/-- An in-bounds `getD` element is a member of the list. -/
theorem getD_mem_of_lt {α : Type} (l : List α) (i : Nat) (d : α) (h : i < l.length) :
    l.getD i d ∈ l := by
  rw [List.getD_eq_getElem l d h]
  exact List.getElem_mem h

namespace BP

variable {E : Type}

/-- The way a training event lands in: the hit way, or the insertion victim. -/
def usedWay (t : TagState) (a : Addr) : Nat :=
  match t.hitWay a with
  | some w => w
  | none => t.victim (t.setOf a)

/-- The entry value that `update` writes at its coordinate: the prior
resident entry (hit) or the reset-and-seeded cold entry (miss), trained
exactly once with the event's outcome. -/
def writtenEntry (ops : BPEntryOps E) (bp : BP E) (e : BPInterface) : E :=
  match bp.tags.hitWay e.pc with
  | some w => ops.update (bp.entryAt ops.reset w (bp.tags.setOf e.pc)) e.is_taken e.target
  | none => ops.update (ops.update_target ops.reset e.target) e.is_taken e.target

theorem update_hit {ops : BPEntryOps E} {bp : BP E} {e : BPInterface} {w : Nat}
    (h : bp.tags.hitWay e.pc = some w) :
    BP.update ops bp e =
      { data := modifyAt bp.data w (fun row => modifyAt row (bp.tags.setOf e.pc)
          (fun en => ops.update en e.is_taken e.target))
        tags := bp.tags.touch w (bp.tags.setOf e.pc) } := by
  unfold BP.update TagState.read
  simp [h]

theorem update_miss {ops : BPEntryOps E} {bp : BP E} {e : BPInterface}
    (h : bp.tags.hitWay e.pc = none) :
    BP.update ops bp e =
      { data := modifyAt bp.data (bp.tags.victim (bp.tags.setOf e.pc))
          (fun row => modifyAt row (bp.tags.setOf e.pc)
            (fun _ => ops.update (ops.update_target ops.reset e.target) e.is_taken e.target))
        tags := (bp.tags.write e.pc).2 } := by
  unfold BP.update TagState.read
  simp [h, TagState.write]

/-- A fresh non-degenerate table is well formed. -/
theorem wf_init (ops : BPEntryOps E) (size ways bits : Nat)
    (hw : 0 < ways) (hs : 0 < size / ways) : BPWF (BP.init ops size ways bits) := by
  refine ⟨⟨hw, hs, ?_⟩, ?_, ?_⟩
  · intro s w1 w2 k _ _ h1 _
    simp [BP.init, TagState.init] at h1
  · simp [BP.init, TagState.init]
  · intro row hrow
    simp [BP.init, TagState.init] at hrow ⊢
    simp [hrow]

/-- Training preserves well-formedness. -/
theorem wf_update (ops : BPEntryOps E) (bp : BP E) (e : BPInterface)
    (hwf : BPWF bp) : BPWF (BP.update ops bp e) := by
  have hrow : ∀ (w σ : Nat) (f : E → E) (row : List E),
      row ∈ modifyAt bp.data w (fun r => modifyAt r σ f) → row.length = bp.tags.sets := by
    intro w σ f row hmem
    rcases mem_modifyAt hmem with h | ⟨r, hr, hrw⟩
    · exact hwf.row_len row h
    · rw [hrw]; simpa using hwf.row_len r hr
  cases h : bp.tags.hitWay e.pc with
  | some w =>
    rw [update_hit h]
    exact ⟨⟨hwf.tagwf.ways_pos, hwf.tagwf.sets_pos, by
        simpa using hwf.tagwf.uniq⟩,
      by simpa using hwf.data_len, fun row hm => hrow _ _ _ row hm⟩
  | none =>
    rw [update_miss h]
    refine ⟨⟨by simpa using hwf.tagwf.ways_pos, by simpa using hwf.tagwf.sets_pos, ?_⟩,
      by simpa using hwf.data_len, fun row hm => hrow _ _ _ row hm⟩
    intro s w1 w2 k hw1 hw2 h1 h2
    rw [TagState.write_tag] at h1 h2
    simp only [TagState.write_ways] at hw1 hw2
    by_cases hc1 : w1 = bp.tags.victim (bp.tags.setOf e.pc) ∧ s = bp.tags.setOf e.pc
    · by_cases hc2 : w2 = bp.tags.victim (bp.tags.setOf e.pc) ∧ s = bp.tags.setOf e.pc
      · rw [hc1.1, hc2.1]
      · rw [if_pos hc1] at h1
        rw [if_neg hc2] at h2
        rcases hc1 with ⟨hc1w, hc1s⟩
        exfalso
        refine TagState.hitWay_none h w2 hw2 ?_
        rw [← hc1s]
        rw [h2]
        injection h1 with hk
        rw [hk]
    · rw [if_neg hc1] at h1
      by_cases hc2 : w2 = bp.tags.victim (bp.tags.setOf e.pc) ∧ s = bp.tags.setOf e.pc
      · rw [if_pos hc2] at h2
        rcases hc2 with ⟨hc2w, hc2s⟩
        exfalso
        refine TagState.hitWay_none h w1 hw1 ?_
        rw [← hc2s, h1]
        injection h2 with hk
        rw [hk]
      · rw [if_neg hc2] at h2
        exact hwf.tagwf.uniq s w1 w2 k hw1 hw2 h1 h2

/-- All reachable states are well formed. -/
theorem wf_of_reachable {ops : BPEntryOps E} {size ways bits : Nat} {bp : BP E}
    (h : Reachable ops size ways bits bp) : BPWF bp := by
  induction h with
  | init hw hs => exact wf_init ops size ways bits hw hs
  | step e _ ih => exact wf_update _ _ e ih

/-- Reachable states keep the constructed geometry. -/
theorem geometry_of_reachable {ops : BPEntryOps E} {size ways bits : Nat} {bp : BP E}
    (h : Reachable ops size ways bits bp) :
    bp.tags.ways = ways ∧ bp.tags.sets = size / ways ∧
    bp.tags.granularity = 4 ∧ bp.tags.addr_bits = bits := by
  induction h with
  | init hw hs => exact ⟨rfl, rfl, rfl, rfl⟩
  | step e hr ih =>
    rename_i bp'
    cases h : bp'.tags.hitWay e.pc with
    | some w => rw [update_hit h]; simpa using ih
    | none => rw [update_miss h]; simpa using ih

/-- The central synchronisation lemma: immediately after a training event,
the store hits the event's address at a way that is in bounds, and the entry
resident at the reported (way, set) coordinate is exactly the entry value the
training wrote. -/
theorem update_sync (ops : BPEntryOps E) (bp : BP E) (e : BPInterface)
    (hwf : BPWF bp) :
    ∃ w, (BP.update ops bp e).tags.hitWay e.pc = some w ∧ w < bp.tags.ways ∧
      (BP.update ops bp e).entryAt ops.reset w ((BP.update ops bp e).tags.setOf e.pc) =
        writtenEntry ops bp e := by
  cases h : bp.tags.hitWay e.pc with
  | some w =>
    have hw := (TagState.hitWay_some h).1
    refine ⟨w, ?_, hw, ?_⟩
    · rw [update_hit h]
      simpa [TagState.hitWay_touch] using h
    · rw [update_hit h]
      have hlen : w < bp.data.length := by rw [hwf.data_len]; exact hw
      have hset : bp.tags.setOf e.pc < (bp.data.getD w []).length := by
        rw [hwf.row_len _ (getD_mem_of_lt _ _ _ hlen)]
        exact TagState.setOf_lt _ hwf.tagwf.sets_pos
      simp only [entryAt, TagState.setOf_touch]
      rw [getD_modifyAt_self _ _ _ _ hlen, getD_modifyAt_self _ _ _ _ hset]
      simp [writtenEntry, h, entryAt]
  | none =>
    have hv := TagState.victim_lt (t := bp.tags) (bp.tags.setOf e.pc) hwf.tagwf.ways_pos
    refine ⟨bp.tags.victim (bp.tags.setOf e.pc), ?_, hv, ?_⟩
    · rw [update_miss h]
      exact TagState.hitWay_write_self h hwf.tagwf.ways_pos
    · rw [update_miss h]
      have hlen : bp.tags.victim (bp.tags.setOf e.pc) < bp.data.length := by
        rw [hwf.data_len]; exact hv
      have hset : bp.tags.setOf e.pc < (bp.data.getD (bp.tags.victim (bp.tags.setOf e.pc)) []).length := by
        rw [hwf.row_len _ (getD_mem_of_lt _ _ _ hlen)]
        exact TagState.setOf_lt _ hwf.tagwf.sets_pos
      simp only [entryAt, TagState.setOf_write]
      rw [getD_modifyAt_self _ _ _ _ hlen, getD_modifyAt_self _ _ _ _ hset]
      simp [writtenEntry, h]

/-- Immediately after a training event, the direction query for the trained
address reads exactly the entry the training wrote. -/
theorem is_taken_after_update (ops : BPEntryOps E) (bp : BP E) (e : BPInterface)
    (hwf : BPWF bp) :
    BP.is_taken ops (BP.update ops bp e) e.pc =
      ops.is_taken (writtenEntry ops bp e) e.pc := by
  obtain ⟨w, hhit, _, hentry⟩ := update_sync ops bp e hwf
  unfold BP.is_taken TagState.read_no_touch
  rw [hhit]
  simp [hentry]

/-- Immediately after a training event whose written entry predicts taken,
the target query returns the written entry's target. -/
theorem get_target_after_update (ops : BPEntryOps E) (bp : BP E) (e : BPInterface)
    (hwf : BPWF bp) (htk : ops.is_taken (writtenEntry ops bp e) e.pc = true) :
    BP.get_target ops (BP.update ops bp e) e.pc =
      ops.getTarget (writtenEntry ops bp e) := by
  obtain ⟨w, hhit, _, hentry⟩ := update_sync ops bp e hwf
  have hit := is_taken_after_update ops bp e hwf
  unfold BP.get_target TagState.read_no_touch
  rw [hhit]
  simp [hit, htk, hentry]

end BP

/-!
## The factory `BPFactory` (embedded from bpu.h)
-/

/-- A type-erased table handle (`std::unique_ptr<BaseBP>`): one constructor
per concrete entry algorithm of the factory's registry. -/
inductive AnyBP where
  | always_taken : BP BPEntryAlwaysTaken → AnyBP
  | backward_jumps : BP BPEntryBackwardJumps → AnyBP
  | one_bit : BP BPEntryOneBit → AnyBP
  | two_bit : BP BPEntryTwoBit → AnyBP
  | adaptive : BP BPEntryAdaptive → AnyBP

namespace AnyBP

def is_taken : AnyBP → Addr → Bool
  | always_taken bp, a => BP.is_taken alwaysTakenOps bp a
  | backward_jumps bp, a => BP.is_taken backwardJumpsOps bp a
  | one_bit bp, a => BP.is_taken oneBitOps bp a
  | two_bit bp, a => BP.is_taken twoBitOps bp a
  | adaptive bp, a => BP.is_taken adaptiveOps bp a

def get_target : AnyBP → Addr → Addr
  | always_taken bp, a => BP.get_target alwaysTakenOps bp a
  | backward_jumps bp, a => BP.get_target backwardJumpsOps bp a
  | one_bit bp, a => BP.get_target oneBitOps bp a
  | two_bit bp, a => BP.get_target twoBitOps bp a
  | adaptive bp, a => BP.get_target adaptiveOps bp a

def get_bp_info : AnyBP → Addr → BPInterface
  | always_taken bp, a => BP.get_bp_info alwaysTakenOps bp a
  | backward_jumps bp, a => BP.get_bp_info backwardJumpsOps bp a
  | one_bit bp, a => BP.get_bp_info oneBitOps bp a
  | two_bit bp, a => BP.get_bp_info twoBitOps bp a
  | adaptive bp, a => BP.get_bp_info adaptiveOps bp a

/-- The number of storage columns (ways) of the handle's entry array. -/
def numWays : AnyBP → Nat
  | always_taken bp => bp.data.length
  | backward_jumps bp => bp.data.length
  | one_bit bp => bp.data.length
  | two_bit bp => bp.data.length
  | adaptive bp => bp.data.length

/-- The lengths of the columns of the handle's entry array. -/
def rowLens : AnyBP → List Nat
  | always_taken bp => bp.data.map List.length
  | backward_jumps bp => bp.data.map List.length
  | one_bit bp => bp.data.map List.length
  | two_bit bp => bp.data.map List.length
  | adaptive bp => bp.data.map List.length

/-- The address store configuration of the handle. -/
def tagsOf : AnyBP → TagState
  | always_taken bp => bp.tags
  | backward_jumps bp => bp.tags
  | one_bit bp => bp.tags
  | two_bit bp => bp.tags
  | adaptive bp => bp.tags

end AnyBP

/-- The fatal configuration report of `BPFactory::create`: the invalid name
together with the full list of supported modes (the process terminates after
printing it; termination and the error channel are modelled by this error
result). -/
structure BPConfigError where
  invalid_name : String
  supported : List String
  deriving DecidableEq, Repr

/-- The names registered in `BPFactory::BPFactory`, in the iteration order of
the registry (`std::map` iterates in lexicographic key order). -/
def supported_modes : List String :=
  ["adaptive_two_level", "dynamic_one_bit", "dynamic_two_bit",
   "static_always_taken", "static_backward_jumps"]

/-- `BPFactory::create` of bpu.h: look the name up in the registry; unknown
names are a fatal configuration error (invalid name plus the full mode list
printed, then `std::exit(EXIT_FAILURE)`, modelled as the error result);
known names build the table with the given geometry.  The C++ default for
`branch_ip_size_in_bits` is 32. -/
def BPFactory.create (name : String) (size_in_entries ways branch_ip_size_in_bits : Nat) :
    Except BPConfigError AnyBP :=
  if name = "static_always_taken" then
    .ok (.always_taken (BP.init alwaysTakenOps size_in_entries ways branch_ip_size_in_bits))
  else if name = "static_backward_jumps" then
    .ok (.backward_jumps (BP.init backwardJumpsOps size_in_entries ways branch_ip_size_in_bits))
  else if name = "dynamic_one_bit" then
    .ok (.one_bit (BP.init oneBitOps size_in_entries ways branch_ip_size_in_bits))
  else if name = "dynamic_two_bit" then
    .ok (.two_bit (BP.init twoBitOps size_in_entries ways branch_ip_size_in_bits))
  else if name = "adaptive_two_level" then
    .ok (.adaptive (BP.init adaptiveOps size_in_entries ways branch_ip_size_in_bits))
  else
    .error ⟨name, supported_modes⟩

/-- A freshly constructed table answers every direction query not-taken. -/
theorem cold_is_taken {E : Type} (ops : BPEntryOps E) (size ways bits : Nat) (a : Addr) :
    BP.is_taken ops (BP.init ops size ways bits) a = false := by
  unfold BP.is_taken BP.init
  simp [TagState.read_no_touch_init]

/-- A freshly constructed table answers every target query with the
fallthrough. -/
theorem cold_get_target {E : Type} (ops : BPEntryOps E) (size ways bits : Nat) (a : Addr) :
    BP.get_target ops (BP.init ops size ways bits) a = a + 4 := by
  unfold BP.get_target BP.init
  simp [TagState.read_no_touch_init]

/-!
## Claims
-/

/-- C3: for every entry algorithm of the five-name catalogue and every
address `a`, a freshly constructed table with no prior update returns
`is_taken a = false` and `get_target a = a + 4` (the architectural
fallthrough with instruction size 4). -/
theorem claim_c3_cold_table (name : String) (size ways bits : Nat) (tbl : AnyBP) (a : Addr)
    (h : BPFactory.create name size ways bits = .ok tbl) :
    tbl.is_taken a = false ∧ tbl.get_target a = a + 4 := by
  unfold BPFactory.create at h
  split at h
  · cases h
    exact ⟨cold_is_taken .., cold_get_target ..⟩
  · split at h
    · cases h
      exact ⟨cold_is_taken .., cold_get_target ..⟩
    · split at h
      · cases h
        exact ⟨cold_is_taken .., cold_get_target ..⟩
      · split at h
        · cases h
          exact ⟨cold_is_taken .., cold_get_target ..⟩
        · split at h
          · cases h
            exact ⟨cold_is_taken .., cold_get_target ..⟩
          · cases h

/-- Witness for C3 at a concrete configuration. -/
theorem claim_c3_cold_table_witness :
    (AnyBP.two_bit (BP.init twoBitOps 128 4 32)).is_taken 200 = false ∧
    (AnyBP.two_bit (BP.init twoBitOps 128 4 32)).get_target 200 = 204 :=
  claim_c3_cold_table "dynamic_two_bit" 128 4 32 _ 200 rfl

/-- C5: the selector rejects any name outside the five recognized ones with
a fatal configuration report carrying the invalid name and the full list of
recognized names (the modelled form of printing to the error channel and
terminating with a failure status), and for a recognized name it returns a
table handle that answers queries without further setup. -/
theorem claim_c5_selector (name : String) (size ways bits : Nat) :
    supported_modes = ["adaptive_two_level", "dynamic_one_bit", "dynamic_two_bit",
      "static_always_taken", "static_backward_jumps"] ∧
    (name ∉ supported_modes →
      BPFactory.create name size ways bits = .error ⟨name, supported_modes⟩) ∧
    (name ∈ supported_modes → ∃ tbl, BPFactory.create name size ways bits = .ok tbl ∧
      ∀ a, tbl.is_taken a = false ∧ tbl.get_target a = a + 4) := by
  refine ⟨rfl, ?_, ?_⟩
  · intro hmem
    simp only [supported_modes, List.mem_cons, List.not_mem_nil, or_false] at hmem
    push_neg at hmem
    obtain ⟨h1, h2, h3, h4, h5⟩ := hmem
    unfold BPFactory.create
    simp [h1, h2, h3, h4, h5]
  · intro hmem
    simp only [supported_modes, List.mem_cons, List.not_mem_nil, or_false] at hmem
    rcases hmem with h | h | h | h | h <;> subst h
    · exact ⟨_, rfl, fun a => ⟨cold_is_taken .., cold_get_target ..⟩⟩
    · exact ⟨_, rfl, fun a => ⟨cold_is_taken .., cold_get_target ..⟩⟩
    · exact ⟨_, rfl, fun a => ⟨cold_is_taken .., cold_get_target ..⟩⟩
    · exact ⟨_, rfl, fun a => ⟨cold_is_taken .., cold_get_target ..⟩⟩
    · exact ⟨_, rfl, fun a => ⟨cold_is_taken .., cold_get_target ..⟩⟩

/-- Witness for C5: a bogus name is rejected with the full mode list, and a
recognized name yields a working handle. -/
theorem claim_c5_selector_witness :
    BPFactory.create "bogus_name" 64 4 32 = .error ⟨"bogus_name", supported_modes⟩ ∧
    ∃ tbl, BPFactory.create "dynamic_two_bit" 128 4 32 = .ok tbl ∧
      ∀ a, tbl.is_taken a = false ∧ tbl.get_target a = a + 4 :=
  ⟨(claim_c5_selector "bogus_name" 64 4 32).2.1 (by decide),
   (claim_c5_selector "dynamic_two_bit" 128 4 32).2.2 (by decide)⟩

/-- C6: for every recognized name the selector builds a table with exactly
`ways` columns of `size / ways` entries each (truncating natural division)
and an address store configured with granularity 4 and the given address
width. -/
theorem claim_c6_geometry (name : String) (size ways bits : Nat) (tbl : AnyBP)
    (h : BPFactory.create name size ways bits = .ok tbl) :
    tbl.numWays = ways ∧
    tbl.rowLens = List.replicate ways (size / ways) ∧
    tbl.tagsOf.granularity = 4 ∧
    tbl.tagsOf.addr_bits = bits ∧
    tbl.tagsOf.ways = ways ∧
    tbl.tagsOf.sets = size / ways := by
  unfold BPFactory.create at h
  split at h
  · cases h
    refine ⟨?_, ?_, rfl, rfl, rfl, rfl⟩ <;>
      simp [AnyBP.numWays, AnyBP.rowLens, BP.init, List.map_replicate]
  · split at h
    · cases h
      refine ⟨?_, ?_, rfl, rfl, rfl, rfl⟩ <;>
        simp [AnyBP.numWays, AnyBP.rowLens, BP.init, List.map_replicate]
    · split at h
      · cases h
        refine ⟨?_, ?_, rfl, rfl, rfl, rfl⟩ <;>
          simp [AnyBP.numWays, AnyBP.rowLens, BP.init, List.map_replicate]
      · split at h
        · cases h
          refine ⟨?_, ?_, rfl, rfl, rfl, rfl⟩ <;>
            simp [AnyBP.numWays, AnyBP.rowLens, BP.init, List.map_replicate]
        · split at h
          · cases h
            refine ⟨?_, ?_, rfl, rfl, rfl, rfl⟩ <;>
              simp [AnyBP.numWays, AnyBP.rowLens, BP.init, List.map_replicate]
          · cases h

/-- Witness for C6: a capacity of 7 entries over 2 ways truncates to 3 rows
per column (the remainder is dropped). -/
theorem claim_c6_geometry_witness :
    (AnyBP.one_bit (BP.init oneBitOps 7 2 32)).numWays = 2 ∧
    (AnyBP.one_bit (BP.init oneBitOps 7 2 32)).rowLens = List.replicate 2 3 ∧
    (AnyBP.one_bit (BP.init oneBitOps 7 2 32)).tagsOf.granularity = 4 ∧
    (AnyBP.one_bit (BP.init oneBitOps 7 2 32)).tagsOf.addr_bits = 32 ∧
    (AnyBP.one_bit (BP.init oneBitOps 7 2 32)).tagsOf.ways = 2 ∧
    (AnyBP.one_bit (BP.init oneBitOps 7 2 32)).tagsOf.sets = 3 :=
  claim_c6_geometry "dynamic_one_bit" 7 2 32 _ rfl

/-- C7: `get_bp_info` is the combination of the two individual queries into
one record, and it equals the derivation of both answers from a single
non-mutating peek lookup. -/
theorem claim_c7_bp_info {E : Type} (ops : BPEntryOps E) (bp : BP E) (a : Addr) :
    BP.get_bp_info ops bp a = ⟨a, BP.is_taken ops bp a, BP.get_target ops bp a⟩ ∧
    BP.get_bp_info ops bp a = BP.get_bp_info_single ops bp a := by
  refine ⟨rfl, ?_⟩
  unfold BP.get_bp_info BP.get_bp_info_single BP.get_target BP.is_taken
  cases h : bp.tags.read_no_touch a with
  | mk hit w => cases hit <;> simp [h]

/-- C8: the TwoBit entry is a 4-state saturating counter — it predicts taken
exactly in the two taken states, each training call moves the numeric
encoding by exactly one step, saturating at 0 and 3; and at table level,
starting from a strongly-not-taken resident entry, three taken trainings
reach and stay at strongly-taken while one subsequent not-taken training
moves to weakly-taken only. -/
theorem claim_c8_two_bit_counter :
    (∀ s : TwoBitState, s.predicts = decide (2 ≤ s.toNat)) ∧
    (∀ s : TwoBitState, (s.train true).toNat = min (s.toNat + 1) 3) ∧
    (∀ s : TwoBitState, (s.train false).toNat = s.toNat - 1) ∧
    ((BP.entryAt twoBitOps.reset
        (BP.update twoBitOps (BP.init twoBitOps 1 1 32) ⟨4, false, 100⟩) 0 0).state =
          TwoBitState.nt_strong ∧
     (BP.entryAt twoBitOps.reset
        (BP.update twoBitOps
          (BP.update twoBitOps (BP.init twoBitOps 1 1 32) ⟨4, false, 100⟩)
          ⟨4, true, 100⟩) 0 0).state = TwoBitState.nt_weak ∧
     (BP.entryAt twoBitOps.reset
        (BP.update twoBitOps (BP.update twoBitOps
          (BP.update twoBitOps (BP.init twoBitOps 1 1 32) ⟨4, false, 100⟩)
          ⟨4, true, 100⟩) ⟨4, true, 100⟩) 0 0).state = TwoBitState.t_weak ∧
     (BP.entryAt twoBitOps.reset
        (BP.update twoBitOps (BP.update twoBitOps (BP.update twoBitOps
          (BP.update twoBitOps (BP.init twoBitOps 1 1 32) ⟨4, false, 100⟩)
          ⟨4, true, 100⟩) ⟨4, true, 100⟩) ⟨4, true, 100⟩) 0 0).state =
            TwoBitState.t_strong ∧
     (BP.entryAt twoBitOps.reset
        (BP.update twoBitOps (BP.update twoBitOps (BP.update twoBitOps (BP.update twoBitOps
          (BP.update twoBitOps (BP.init twoBitOps 1 1 32) ⟨4, false, 100⟩)
          ⟨4, true, 100⟩) ⟨4, true, 100⟩) ⟨4, true, 100⟩) ⟨4, true, 100⟩) 0 0).state =
            TwoBitState.t_strong ∧
     (BP.entryAt twoBitOps.reset
        (BP.update twoBitOps (BP.update twoBitOps (BP.update twoBitOps (BP.update twoBitOps
          (BP.update twoBitOps (BP.init twoBitOps 1 1 32) ⟨4, false, 100⟩)
          ⟨4, true, 100⟩) ⟨4, true, 100⟩) ⟨4, true, 100⟩) ⟨4, false, 100⟩) 0 0).state =
            TwoBitState.t_weak) := by
  refine ⟨fun s => by cases s <;> rfl, fun s => by cases s <;> rfl,
    fun s => by cases s <;> rfl, ?_⟩
  exact ⟨by decide, by decide, by decide, by decide, by decide, by decide⟩

/-- C4 is refuted as stated: on a table state whose resident TwoBit entry is
strongly-not-taken (reached by one not-taken training from cold), a single
taken training moves the counter only to weakly-not-taken, so `is_taken`
stays false contrary to the claim that it is true on any table state. -/
theorem claim_c4_counterexample :
    ¬ (BP.is_taken twoBitOps
        (BP.update twoBitOps
          (BP.update twoBitOps (BP.init twoBitOps 1 1 32) ⟨4, false, 100⟩)
          ⟨4, true, 8⟩) 4 = true ∧
       BP.get_target twoBitOps
        (BP.update twoBitOps
          (BP.update twoBitOps (BP.init twoBitOps 1 1 32) ⟨4, false, 100⟩)
          ⟨4, true, 8⟩) 4 = 8) := by decide

/-- C4 (amended): after `update {a, taken := true, target := T}`, `is_taken a`
is true and `get_target a = T` — for AlwaysTaken and OneBit on every
well-formed table state, and for TwoBit and Adaptive whenever the trained
address was not resident (a freshly allocated, reset-and-seeded entry), which
covers in particular every fresh table. -/
theorem claim_c4_train_then_query :
    (∀ (bp : BP BPEntryAlwaysTaken) (a T : Addr), BPWF bp →
      BP.is_taken alwaysTakenOps (BP.update alwaysTakenOps bp ⟨a, true, T⟩) a = true ∧
      BP.get_target alwaysTakenOps (BP.update alwaysTakenOps bp ⟨a, true, T⟩) a = T) ∧
    (∀ (bp : BP BPEntryOneBit) (a T : Addr), BPWF bp →
      BP.is_taken oneBitOps (BP.update oneBitOps bp ⟨a, true, T⟩) a = true ∧
      BP.get_target oneBitOps (BP.update oneBitOps bp ⟨a, true, T⟩) a = T) ∧
    (∀ (bp : BP BPEntryTwoBit) (a T : Addr), BPWF bp → bp.tags.hitWay a = none →
      BP.is_taken twoBitOps (BP.update twoBitOps bp ⟨a, true, T⟩) a = true ∧
      BP.get_target twoBitOps (BP.update twoBitOps bp ⟨a, true, T⟩) a = T) ∧
    (∀ (bp : BP BPEntryAdaptive) (a T : Addr), BPWF bp → bp.tags.hitWay a = none →
      BP.is_taken adaptiveOps (BP.update adaptiveOps bp ⟨a, true, T⟩) a = true ∧
      BP.get_target adaptiveOps (BP.update adaptiveOps bp ⟨a, true, T⟩) a = T) := by
  refine ⟨?_, ?_, ?_, ?_⟩
  · intro bp a T hwf
    have hw : BP.writtenEntry alwaysTakenOps bp ⟨a, true, T⟩ = ⟨T⟩ := by
      unfold BP.writtenEntry
      cases h : bp.tags.hitWay a <;> simp [h, alwaysTakenOps]
    refine ⟨?_, ?_⟩
    · rw [BP.is_taken_after_update _ _ _ hwf, hw]
      rfl
    · rw [BP.get_target_after_update _ _ _ hwf (by rw [hw]; rfl), hw]
      rfl
  · intro bp a T hwf
    have hw : BP.writtenEntry oneBitOps bp ⟨a, true, T⟩ = ⟨true, T⟩ := by
      unfold BP.writtenEntry
      cases h : bp.tags.hitWay a <;> simp [h, oneBitOps]
    refine ⟨?_, ?_⟩
    · rw [BP.is_taken_after_update _ _ _ hwf, hw]
      rfl
    · rw [BP.get_target_after_update _ _ _ hwf (by rw [hw]; rfl), hw]
      rfl
  · intro bp a T hwf hmiss
    have hw : BP.writtenEntry twoBitOps bp ⟨a, true, T⟩ = ⟨.t_weak, T⟩ := by
      unfold BP.writtenEntry
      simp [hmiss, twoBitOps, TwoBitState.train]
    refine ⟨?_, ?_⟩
    · rw [BP.is_taken_after_update _ _ _ hwf, hw]
      rfl
    · rw [BP.get_target_after_update _ _ _ hwf (by rw [hw]; rfl), hw]
      rfl
  · intro bp a T hwf hmiss
    have hw : BP.writtenEntry adaptiveOps bp ⟨a, true, T⟩ =
        adaptiveOps.update (adaptiveOps.update_target adaptiveOps.reset T) true T := by
      unfold BP.writtenEntry
      simp [hmiss]
    refine ⟨?_, ?_⟩
    · rw [BP.is_taken_after_update _ _ _ hwf, hw]
      rfl
    · rw [BP.get_target_after_update _ _ _ hwf (by rw [hw]; rfl), hw]
      rfl

/-- Witness for the amended C4 at concrete fresh tables. -/
theorem claim_c4_train_then_query_witness :
    (BP.is_taken alwaysTakenOps
      (BP.update alwaysTakenOps (BP.init alwaysTakenOps 2 1 32) ⟨4, true, 100⟩) 4 = true ∧
     BP.get_target alwaysTakenOps
      (BP.update alwaysTakenOps (BP.init alwaysTakenOps 2 1 32) ⟨4, true, 100⟩) 4 = 100) ∧
    (BP.is_taken oneBitOps
      (BP.update oneBitOps (BP.init oneBitOps 2 1 32) ⟨4, true, 100⟩) 4 = true ∧
     BP.get_target oneBitOps
      (BP.update oneBitOps (BP.init oneBitOps 2 1 32) ⟨4, true, 100⟩) 4 = 100) ∧
    (BP.is_taken twoBitOps
      (BP.update twoBitOps (BP.init twoBitOps 2 1 32) ⟨4, true, 100⟩) 4 = true ∧
     BP.get_target twoBitOps
      (BP.update twoBitOps (BP.init twoBitOps 2 1 32) ⟨4, true, 100⟩) 4 = 100) ∧
    (BP.is_taken adaptiveOps
      (BP.update adaptiveOps (BP.init adaptiveOps 2 1 32) ⟨4, true, 100⟩) 4 = true ∧
     BP.get_target adaptiveOps
      (BP.update adaptiveOps (BP.init adaptiveOps 2 1 32) ⟨4, true, 100⟩) 4 = 100) :=
  ⟨claim_c4_train_then_query.1 (BP.init alwaysTakenOps 2 1 32) 4 100
      (BP.wf_init _ 2 1 32 (by decide) (by decide)),
   claim_c4_train_then_query.2.1 (BP.init oneBitOps 2 1 32) 4 100
      (BP.wf_init _ 2 1 32 (by decide) (by decide)),
   claim_c4_train_then_query.2.2.1 (BP.init twoBitOps 2 1 32) 4 100
      (BP.wf_init _ 2 1 32 (by decide) (by decide))
      (TagState.hitWay_init 2 1 4 32 4),
   claim_c4_train_then_query.2.2.2 (BP.init adaptiveOps 2 1 32) 4 100
      (BP.wf_init _ 2 1 32 (by decide) (by decide))
      (TagState.hitWay_init 2 1 4 32 4)⟩

/-- The behaviour C1 ascribes to `update`: the trained coordinate is the
touching lookup's hit way (or the insertion victim on a miss), the entry
there becomes the prior resident entry (hit) or the reset-and-target-seeded
cold entry (miss) trained exactly once with the event, the store state is the
touched (hit) or written (miss) store, and no other entry coordinate
changes. -/
def UpdateShape {E : Type} (ops : BPEntryOps E) (bp : BP E) (e : BPInterface) : Prop :=
  (BP.update ops bp e).entryAt ops.reset (BP.usedWay bp.tags e.pc) (bp.tags.setOf e.pc) =
    BP.writtenEntry ops bp e ∧
  (BP.update ops bp e).tags =
    (match bp.tags.hitWay e.pc with
     | some w => bp.tags.touch w (bp.tags.setOf e.pc)
     | none => (bp.tags.write e.pc).2) ∧
  ∀ w' s', (w' ≠ BP.usedWay bp.tags e.pc ∨ s' ≠ bp.tags.setOf e.pc) →
    (BP.update ops bp e).entryAt ops.reset w' s' = bp.entryAt ops.reset w' s'

/-- Entries outside the modified coordinate are untouched. -/
theorem entry_frame {E : Type} (d : List (List E)) (W σ : Nat) (f : E → E) (dflt : E)
    (hW : W < d.length) (w' s' : Nat) (hne : w' ≠ W ∨ s' ≠ σ) :
    ((modifyAt d W (fun row => modifyAt row σ f)).getD w' []).getD s' dflt =
      (d.getD w' []).getD s' dflt := by
  by_cases hw : w' = W
  · subst hw
    rcases hne with h | h
    · exact absurd rfl h
    · rw [getD_modifyAt_self _ _ _ _ hW, getD_modifyAt_ne _ _ _ _ _ h]
  · rw [getD_modifyAt_ne _ _ _ _ _ hw]

/-- C1: for every table state and event, `update` performs the touching
lookup, reuses the hit coordinate or allocates via the store's insertion on
a miss, resets and target-seeds a freshly allocated entry, trains the
resident entry exactly once, and leaves every other coordinate unchanged
(it is a total function: no error path exists). -/
theorem claim_c1_update_semantics {E : Type} (ops : BPEntryOps E) (bp : BP E)
    (e : BPInterface) (hwf : BPWF bp) : UpdateShape ops bp e := by
  cases h : bp.tags.hitWay e.pc with
  | some w =>
    have hOld := TagState.hitWay_some h
    have hwlen : w < bp.data.length := by rw [hwf.data_len]; exact hOld.1
    have hset : bp.tags.setOf e.pc < (bp.data.getD w []).length := by
      rw [hwf.row_len _ (getD_mem_of_lt _ _ _ hwlen)]
      exact TagState.setOf_lt _ hwf.tagwf.sets_pos
    have hused : BP.usedWay bp.tags e.pc = w := by unfold BP.usedWay; rw [h]
    refine ⟨?_, ?_, ?_⟩
    · rw [BP.update_hit h, hused]
      unfold BP.entryAt
      rw [getD_modifyAt_self _ _ _ _ hwlen, getD_modifyAt_self _ _ _ _ hset]
      simp [BP.writtenEntry, h, BP.entryAt]
    · rw [BP.update_hit h, h]
    · intro w' s' hne
      rw [hused] at hne
      rw [BP.update_hit h]
      exact entry_frame bp.data w _ _ ops.reset hwlen w' s' hne
  | none =>
    have hv : bp.tags.victim (bp.tags.setOf e.pc) < bp.tags.ways :=
      TagState.victim_lt _ hwf.tagwf.ways_pos
    have hwlen : bp.tags.victim (bp.tags.setOf e.pc) < bp.data.length := by
      rw [hwf.data_len]; exact hv
    have hset : bp.tags.setOf e.pc <
        (bp.data.getD (bp.tags.victim (bp.tags.setOf e.pc)) []).length := by
      rw [hwf.row_len _ (getD_mem_of_lt _ _ _ hwlen)]
      exact TagState.setOf_lt _ hwf.tagwf.sets_pos
    have hused : BP.usedWay bp.tags e.pc = bp.tags.victim (bp.tags.setOf e.pc) := by
      unfold BP.usedWay; rw [h]
    refine ⟨?_, ?_, ?_⟩
    · rw [BP.update_miss h, hused]
      unfold BP.entryAt
      rw [getD_modifyAt_self _ _ _ _ hwlen, getD_modifyAt_self _ _ _ _ hset]
      simp [BP.writtenEntry, h]
    · rw [BP.update_miss h, h]
    · intro w' s' hne
      rw [hused] at hne
      rw [BP.update_miss h]
      exact entry_frame bp.data _ _ _ ops.reset hwlen w' s' hne

/-- Witness for C1 at a concrete table and event. -/
theorem claim_c1_update_semantics_witness :
    UpdateShape oneBitOps (BP.init oneBitOps 2 1 32) ⟨4, true, 100⟩ :=
  claim_c1_update_semantics oneBitOps (BP.init oneBitOps 2 1 32) ⟨4, true, 100⟩
    (BP.wf_init _ 2 1 32 (by decide) (by decide))

/-- The synchronisation properties C9 ascribes to a table state: the store
reports at most one coordinate per address, the touching lookup reports the
same (hit, way) answer as the peek, and every training event leaves the
store hitting the trained address at a coordinate whose resident entry is
exactly the entry the training wrote (allocation, reset, seed and train are
atomic with respect to subsequent queries). -/
def SyncProps {E : Type} (ops : BPEntryOps E) (bp : BP E) : Prop :=
  (∀ a w1 w2, w1 < bp.tags.ways → w2 < bp.tags.ways →
      bp.tags.tag w1 (bp.tags.setOf a) = some (bp.tags.key a) →
      bp.tags.tag w2 (bp.tags.setOf a) = some (bp.tags.key a) → w1 = w2) ∧
  (∀ a, (bp.tags.read a).1 = bp.tags.read_no_touch a) ∧
  (∀ e : BPInterface, ∃ w,
      (BP.update ops bp e).tags.hitWay e.pc = some w ∧
      (BP.update ops bp e).entryAt ops.reset w ((BP.update ops bp e).tags.setOf e.pc) =
        BP.writtenEntry ops bp e ∧
      BP.is_taken ops (BP.update ops bp e) e.pc =
        ops.is_taken (BP.writtenEntry ops bp e) e.pc)

/-- C9: in every reachable table state, addressing and entry storage are
synchronised in the sense of `SyncProps`. -/
theorem claim_c9_no_desync {E : Type} (ops : BPEntryOps E) (size ways bits : Nat)
    (bp : BP E) (hr : Reachable ops size ways bits bp) : SyncProps ops bp := by
  have hwf := BP.wf_of_reachable hr
  refine ⟨fun a w1 w2 h1 h2 h3 h4 => hwf.tagwf.uniq _ w1 w2 _ h1 h2 h3 h4,
    fun a => TagState.read_fst_eq_read_no_touch _ a, fun e => ?_⟩
  obtain ⟨w, hh, _, he⟩ := BP.update_sync ops bp e hwf
  exact ⟨w, hh, he, BP.is_taken_after_update ops bp e hwf⟩

/-- Witness for C9 at a concrete reachable state. -/
theorem claim_c9_no_desync_witness :
    SyncProps oneBitOps
      (BP.update oneBitOps (BP.init oneBitOps 4 2 32) ⟨4, true, 100⟩) :=
  claim_c9_no_desync oneBitOps 4 2 32 _
    (Reachable.step ⟨4, true, 100⟩ (Reachable.init (by decide) (by decide)))

/-- The bounds C10 ascribes to a table built with `ways` columns of `sets`
rows: the entry array has exactly that shape, the set index is always below
`sets`, and every way index produced by the store's peek, touching lookup or
insertion is below `ways`. -/
def BoundsProps {E : Type} (bp : BP E) (ways sets : Nat) : Prop :=
  bp.data.length = ways ∧
  (∀ row ∈ bp.data, row.length = sets) ∧
  (∀ a, bp.tags.setOf a < sets) ∧
  (∀ a w, bp.tags.read_no_touch a = (true, w) → w < ways) ∧
  (∀ a w t', bp.tags.read a = ((true, w), t') → w < ways) ∧
  (∀ a, (bp.tags.write a).1 < ways)

/-- C10: every entry-array access `data[way][set]` performed by the queries
and by training is in bounds, in every reachable state of a table built with
`ways` columns of `size / ways` rows. -/
theorem claim_c10_in_bounds {E : Type} (ops : BPEntryOps E) (size ways bits : Nat)
    (bp : BP E) (hr : Reachable ops size ways bits bp) :
    BoundsProps bp ways (size / ways) := by
  have hwf := BP.wf_of_reachable hr
  obtain ⟨hW, hS, _, _⟩ := BP.geometry_of_reachable hr
  have hpeek : ∀ (a : Addr) (w : Nat), bp.tags.read_no_touch a = (true, w) → w < ways := by
    intro a w h
    unfold TagState.read_no_touch at h
    cases hh : bp.tags.hitWay a with
    | some w0 =>
      rw [hh] at h
      cases h
      rw [← hW]
      exact (TagState.hitWay_some hh).1
    | none => rw [hh] at h; cases h
  refine ⟨by rw [hwf.data_len, hW], fun row hrow => by rw [hwf.row_len row hrow, hS],
    fun a => by rw [← hS]; exact TagState.setOf_lt _ hwf.tagwf.sets_pos,
    hpeek, fun a w t' h => ?_, fun a => ?_⟩
  · refine hpeek a w ?_
    rw [← TagState.read_fst_eq_read_no_touch]
    rw [h]
  · rw [TagState.write_fst, ← hW]
    exact TagState.victim_lt _ hwf.tagwf.ways_pos

/-- Witness for C10 at a concrete reachable state. -/
theorem claim_c10_in_bounds_witness :
    BoundsProps (BP.update twoBitOps (BP.init twoBitOps 4 2 32) ⟨8, true, 16⟩) 2 2 :=
  claim_c10_in_bounds twoBitOps 4 2 32 _
    (Reachable.step ⟨8, true, 16⟩ (Reachable.init (by decide) (by decide)))

/-!
## The 1-way, 1-entry peek/touch scenario (C2)
-/

theorem victim_of_ways_one (t : TagState) (h : t.ways = 1) (s : Nat) :
    t.victim s = 0 := by
  unfold TagState.victim
  rw [h]
  have hr : List.range 1 = [0] := rfl
  rw [hr]
  simp

theorem setOf_of_sets_one (t : TagState) (h : t.sets = 1) (x : Addr) :
    t.setOf x = 0 := by
  unfold TagState.setOf
  rw [h]
  exact Nat.mod_one _

theorem hitWay_of_ways_one (t : TagState) (h : t.ways = 1) (x : Addr) :
    t.hitWay x = if t.tag 0 (t.setOf x) = some (t.key x) then some 0 else none := by
  unfold TagState.hitWay
  rw [h]
  have hr : List.range 1 = [0] := rfl
  rw [hr]
  by_cases hc : t.tag 0 (t.setOf x) = some (t.key x)
  · rw [if_pos hc]
    exact List.find?_cons_of_pos _ (by simp [hc])
  · rw [if_neg hc]
    rw [List.find?_cons_of_neg _ (by simp [hc])]
    rfl

/-- The 1-way, 1-entry-capacity OneBit table of the C2 scenario. -/
def oneEntryBP : BP BPEntryOneBit := BP.init oneBitOps 1 1 32

/-- The observable behaviour C2 requires of the 1-way, 1-entry table: after
training address `a` taken to `T`, queries for `a` see the trained entry;
queries for an untrained address `c` are cold misses (and, being computed
through the store's non-mutating peek, change no state at all); retraining
`a` identically still advances the replacement clock (the touching lookup
mutates replacement order even when direction and target are unchanged); and
one training of a distinct address `b` evicts `a`, whose next query is a
cold miss. -/
def PeekTouchScenario (a b c T Tb : Addr) (tb : Bool) : Prop :=
  BP.is_taken oneBitOps (BP.update oneBitOps oneEntryBP ⟨a, true, T⟩) a = true ∧
  BP.get_target oneBitOps (BP.update oneBitOps oneEntryBP ⟨a, true, T⟩) a = T ∧
  BP.is_taken oneBitOps (BP.update oneBitOps oneEntryBP ⟨a, true, T⟩) c = false ∧
  BP.get_target oneBitOps (BP.update oneBitOps oneEntryBP ⟨a, true, T⟩) c = c + 4 ∧
  (BP.update oneBitOps (BP.update oneBitOps oneEntryBP ⟨a, true, T⟩)
      ⟨a, true, T⟩).tags.clock =
    (BP.update oneBitOps oneEntryBP ⟨a, true, T⟩).tags.clock + 1 ∧
  BP.is_taken oneBitOps
    (BP.update oneBitOps (BP.update oneBitOps oneEntryBP ⟨a, true, T⟩) ⟨b, tb, Tb⟩) a
    = false ∧
  BP.get_target oneBitOps
    (BP.update oneBitOps (BP.update oneBitOps oneEntryBP ⟨a, true, T⟩) ⟨b, tb, Tb⟩) a
    = a + 4

/-- C2: prediction queries use only the non-mutating peek (they are value
functions of the state), while training always performs the touching lookup;
in the 1-way, 1-entry table, queries for untrained addresses never evict the
resident trained entry, while a single training of a distinct address does,
making the evicted address's next query a cold miss. -/
theorem claim_c2_peek_noninterference (a b c T Tb : Addr) (tb : Bool)
    (hca : oneEntryBP.tags.key c ≠ oneEntryBP.tags.key a)
    (hba : oneEntryBP.tags.key b ≠ oneEntryBP.tags.key a) :
    PeekTouchScenario a b c T Tb tb := by
  have h0 : oneEntryBP.tags.hitWay a = none := TagState.hitWay_init 1 1 4 32 a
  have hwf0 : BPWF oneEntryBP := BP.wf_init _ 1 1 32 (by decide) (by decide)
  have ht1 : (BP.update oneBitOps oneEntryBP ⟨a, true, T⟩).tags =
      (oneEntryBP.tags.write a).2 := by rw [BP.update_miss h0]
  have hways1 : (BP.update oneBitOps oneEntryBP ⟨a, true, T⟩).tags.ways = 1 := by
    rw [ht1]; rfl
  have hsets1 : (BP.update oneBitOps oneEntryBP ⟨a, true, T⟩).tags.sets = 1 := by
    rw [ht1]; rfl
  have hkey1 : ∀ x, (BP.update oneBitOps oneEntryBP ⟨a, true, T⟩).tags.key x =
      oneEntryBP.tags.key x := by intro x; rw [ht1]; rfl
  have htag1 : ∀ w' s', (BP.update oneBitOps oneEntryBP ⟨a, true, T⟩).tags.tag w' s' =
      if w' = 0 ∧ s' = 0 then some (oneEntryBP.tags.key a) else none := by
    intro w' s'
    rw [ht1, TagState.write_tag, victim_of_ways_one _ rfl, setOf_of_sets_one _ rfl]
    rfl
  have hwrt : BP.writtenEntry oneBitOps oneEntryBP ⟨a, true, T⟩ = ⟨true, T⟩ := by
    unfold BP.writtenEntry
    simp [h0, oneBitOps]
  have hhc : (BP.update oneBitOps oneEntryBP ⟨a, true, T⟩).tags.hitWay c = none := by
    rw [hitWay_of_ways_one _ hways1, setOf_of_sets_one _ hsets1, htag1, hkey1]
    simp [Ne.symm hca]
  have hha : (BP.update oneBitOps oneEntryBP ⟨a, true, T⟩).tags.hitWay a = some 0 := by
    rw [hitWay_of_ways_one _ hways1, setOf_of_sets_one _ hsets1, htag1, hkey1]
    simp
  have hhb : (BP.update oneBitOps oneEntryBP ⟨a, true, T⟩).tags.hitWay b = none := by
    rw [hitWay_of_ways_one _ hways1, setOf_of_sets_one _ hsets1, htag1, hkey1]
    simp [Ne.symm hba]
  have ht3 : (BP.update oneBitOps (BP.update oneBitOps oneEntryBP ⟨a, true, T⟩)
      ⟨b, tb, Tb⟩).tags =
      ((BP.update oneBitOps oneEntryBP ⟨a, true, T⟩).tags.write b).2 := by
    rw [BP.update_miss hhb]
  have hways3 : (BP.update oneBitOps (BP.update oneBitOps oneEntryBP ⟨a, true, T⟩)
      ⟨b, tb, Tb⟩).tags.ways = 1 := by rw [ht3]; simpa using hways1
  have hsets3 : (BP.update oneBitOps (BP.update oneBitOps oneEntryBP ⟨a, true, T⟩)
      ⟨b, tb, Tb⟩).tags.sets = 1 := by rw [ht3]; simpa using hsets1
  have hh3a : (BP.update oneBitOps (BP.update oneBitOps oneEntryBP ⟨a, true, T⟩)
      ⟨b, tb, Tb⟩).tags.hitWay a = none := by
    rw [hitWay_of_ways_one _ hways3, setOf_of_sets_one _ hsets3]
    rw [ht3, TagState.write_tag, victim_of_ways_one _ hways1, setOf_of_sets_one _ hsets1]
    simp only [and_self, if_true, true_and]
    have : ((BP.update oneBitOps oneEntryBP ⟨a, true, T⟩).tags.write b).2.key a =
        oneEntryBP.tags.key a := by rw [TagState.key_write, hkey1]
    rw [this, hkey1]
    simp [hba]
  refine ⟨?_, ?_, ?_, ?_, ?_, ?_, ?_⟩
  · rw [BP.is_taken_after_update _ _ _ hwf0, hwrt]
    rfl
  · rw [BP.get_target_after_update _ _ _ hwf0 (by rw [hwrt]; rfl), hwrt]
    rfl
  · simp [BP.is_taken, TagState.read_no_touch, hhc]
  · simp [BP.get_target, BP.is_taken, TagState.read_no_touch, hhc]
  · rw [BP.update_hit hha]
    simp
  · simp [BP.is_taken, TagState.read_no_touch, hh3a]
  · simp [BP.get_target, BP.is_taken, TagState.read_no_touch, hh3a]

/-- Witness for C2 at concrete addresses. -/
theorem claim_c2_peek_noninterference_witness :
    PeekTouchScenario 4 8 12 100 8 false :=
  claim_c2_peek_noninterference 4 8 12 100 8 false (by decide) (by decide)
